import Mathlib

/-!
Shallow embedding of the PEARLS online multi-pitch estimator of this
repository (files `pearls.py` and `utils.py`), with exact real/complex
arithmetic in place of floating point.  Vectors and matrices are total
functions out of `ℕ`; the live index ranges are the same as the numpy
array shapes.  Fallible numpy calls (`np.linalg.inv`, which raises on a
singular matrix) are modelled with `Option`.
-/

noncomputable section

open scoped Classical

/-- Numeric literal `1e-10` used by the soft-threshold operators in `pearls.py`. -/
def eps10 : ℝ := 1 / 10 ^ 10

/-- Numeric literal `1e-5` used by `_group_penalty_parameter` in `pearls.py`. -/
def eps5 : ℝ := 1 / 10 ^ 5

/-- Python `max` over a list of real values, as used on the nonnegative numpy
norm arrays in `pearls.py` (`max(norms)`).  On a nonempty list of nonnegative
values this agrees with Python `max`; the `0` seed is never the result in the
regimes the source exercises (the lists are nonempty with nonnegative entries). -/
def listMax (l : List ℝ) : ℝ := l.foldr max 0

/-- Python slice `l[a:b]` with exact Python semantics for possibly negative
bounds: a negative bound counts from the end of the list, and the result is
empty when the resolved lower bound is not below the upper bound. -/
def pySlice (l : List ℝ) (a b : ℤ) : List ℝ :=
  let n : ℤ := l.length
  let lo : ℤ := if a < 0 then max 0 (n + a) else min a n
  let hi : ℤ := if b < 0 then max 0 (n + b) else min b n
  (l.drop lo.toNat).take (hi - lo).toNat

/-- Python `int(x)`: truncation toward zero. -/
def pyInt (x : ℝ) : ℤ := if 0 ≤ x then ⌊x⌋ else ⌈x⌉

/-- `np.arange(start, stop, step)` for a positive real step: the values
`start + k * step` for `k < ⌈(stop - start) / step⌉`. -/
def npArange (start stop stepv : ℝ) : List ℝ :=
  (List.range (⌈(stop - start) / stepv⌉).toNat).map fun k : ℕ => start + (k : ℝ) * stepv

/-- `_get_window_length` from `pearls.py`:
`int(np.log(0.01) / np.log(lambda_))`. -/
def _get_window_length (lambda_ : ℝ) : ℤ :=
  pyInt (Real.log (1 / 100) / Real.log lambda_)

/-- `_S1` from `pearls.py`, the soft L1 threshold operator, on one complex
entry (the numpy version maps it elementwise over the array):
`mval = max(|x| - alpha, 0); mval / (mval + alpha + 1e-10) * x`. -/
def S1 (x : ℂ) (alpha : ℝ) : ℂ :=
  let mval := max (Complex.abs x - alpha) 0
  ((mval / (mval + alpha + eps10) : ℝ) : ℂ) * x

/-- The scalar factor of `_S2` from `pearls.py` (soft L2 threshold): given the
Euclidean norm `nrm` of the group vector,
`mval = max(nrm - alpha, 0); mval / (mval + alpha + 1e-10)`. -/
def S2coeff (nrm alpha : ℝ) : ℝ :=
  let mval := max (nrm - alpha) 0
  mval / (mval + alpha + eps10)

/-- `_group_penalty_parameter` from `pearls.py`:
`p2 * max(1, min(1000, 1 / (|w_hat_p[0][0]| + 1e-5)))`. -/
def _group_penalty_parameter (w0 : ℂ) (p2 : ℝ) : ℝ :=
  p2 * max 1 (min 1000 (1 / (Complex.abs w0 + eps5)))

/-- The state of a `Pearls` object (`pearls.py`): configuration scalars from
`__init__` plus the mutable arrays created by `initialize_variables`. -/
structure PState where
  s : List ℝ
  lambda_ : ℝ
  xi : ℝ
  H : ℕ
  fs : ℝ
  K : ℕ
  p1 : ℝ
  p2 : ℝ
  ss : ℝ
  mgi : ℕ
  mu : ℝ
  norm_thresh : ℝ
  P : ℕ
  f_mat : ℕ → ℕ → ℝ
  Delta : ℕ
  Lambda_ : ℕ → ℝ
  t_stop : ℕ
  A : ℕ → ℕ → ℂ
  a : ℕ → ℂ
  R : ℕ → ℕ → ℂ
  r : ℕ → ℂ
  rls : ℕ → ℂ
  w_hat : ℕ → ℂ
  act : List ℕ
  w_hat_hist : ℕ → ℕ → ℂ
  rls_hist : ℕ → ℕ → ℂ
  freq_hist : ℕ → ℕ → ℝ
  p1_hist : ℕ → ℝ
  p2_hist : ℕ → ℝ

namespace Pearls

/-- `Pearls._Gp`: the harmonic coefficient indices of pitch `p`,
`np.arange(H * p, H * (p + 1))`. -/
def Gp (H p : ℕ) : List ℕ := (List.range H).map fun h => H * p + h

/-- Row `i` of the time vector `t = arange(L + K) / fs`: `t[i] = i / fs`. -/
def tAt (st : PState) (n : ℕ) : ℝ := (n : ℝ) / st.fs

/-- The flattened frequency matrix `r(f_mat)` (row-major over
`[pitch, harmonic]`): coefficient `j` belongs to pitch `j / H`,
harmonic `j % H`. -/
def fFlat (st : PState) (j : ℕ) : ℝ := st.f_mat (j / st.H) (j % st.H)

/-- One complex exponential basis entry `exp(2·pi·i·f·t)` from `_update_a`. -/
def basisExp (f t : ℝ) : ℂ :=
  Complex.exp (2 * (Real.pi : ℂ) * Complex.I * ((f * t : ℝ) : ℂ))

/-- Matrix-vector product over the first `n` coordinates (`R @ w`). -/
def matVec (n : ℕ) (M : ℕ → ℕ → ℂ) (v : ℕ → ℂ) : ℕ → ℂ :=
  fun i => ∑ j ∈ Finset.range n, M i j * v j

/-- Euclidean norm of the `H` coefficients of group `p` of a flat vector,
`np.linalg.norm(w_mat, axis=1)` after `reshape((P, H))`. -/
def groupNorm (H : ℕ) (w : ℕ → ℂ) (p : ℕ) : ℝ :=
  Real.sqrt (∑ h ∈ Finset.range H, Complex.normSq (w (H * p + h)))

/-- `Pearls._increment_time_vars`: advance `t_stop` (the window `tvec` is the
derived slice `t[t_stop - K : t_stop]`). -/
def _increment_time_vars (st : PState) : PState :=
  { st with t_stop := st.t_stop + 1 }

/-- `Pearls._update_a`: if the frequency matrix was updated, recompute the
whole basis window `A` on `tvec` and take `a` as its last row; otherwise
compute the single new basis row at `t[t_stop - 1]` and roll `A` up by one. -/
def _update_a (fs_updated : Bool) (st : PState) : PState :=
  if fs_updated then
    let A2 : ℕ → ℕ → ℂ := fun i j => basisExp (fFlat st j) (tAt st (st.t_stop - st.K + i))
    { st with A := A2, a := fun j => A2 (st.K - 1) j }
  else
    let tval := tAt st (st.t_stop - 1)
    let a2 : ℕ → ℂ := fun j => basisExp (fFlat st j) tval
    { st with
      A := fun i j => if i = st.K - 1 then a2 j else st.A (i + 1) j,
      a := a2 }

/-- `Pearls._update_r`: the rank-one decayed updates
`R ← lambda·R + a·aᴴ` and `r ← lambda·r + s_val·conj(a)`. -/
def _update_r (s_val : ℝ) (st : PState) : PState :=
  { st with
    R := fun i j => (st.lambda_ : ℂ) * st.R i j + st.a i * (starRingEnd ℂ) (st.a j),
    r := fun i => (st.lambda_ : ℂ) * st.r i + (s_val : ℂ) * (starRingEnd ℂ) (st.a i) }

/-- The penalty level of `Pearls._penalty_parameter_update`:
`A_win = A[-Delta:]`, `s_win = s[stop_idx - Delta : stop_idx]` (Python slice
semantics, so a negative start wraps), then
`s_win = np.pad(s_win, (max(0, Delta - len(s_win)), 0))` (`np.pad` on a 2-D
column pads both axes, placing the data in column `padAmt`), and
`eta = mu * ||ct(Lambda_ @ A_win) @ s_win||_inf` (the matrix infinity norm is
the maximal row sum of absolute values). -/
def penaltyEta (st : PState) (stop_idx : ℕ) : ℝ :=
  let n := st.P * st.H
  let AWin : ℕ → ℕ → ℂ := fun i j => st.A (st.K - st.Delta + i) j
  let sWin : List ℝ := pySlice st.s ((stop_idx : ℤ) - (st.Delta : ℤ)) (stop_idx : ℤ)
  let padAmt : ℕ := st.Delta - sWin.length
  let sPad : ℕ → ℕ → ℝ := fun i j =>
    if i < padAmt ∨ j < padAmt then 0
    else if j = padAmt then sWin.getD (i - padAmt) 0 else 0
  let X : ℕ → ℕ → ℂ := fun jcoef ccol =>
    ∑ i ∈ Finset.range st.Delta,
      (starRingEnd ℂ) ((st.Lambda_ i : ℂ) * AWin i jcoef) * ((sPad i ccol : ℝ) : ℂ)
  let rowSum : ℕ → ℝ := fun jcoef =>
    ∑ ccol ∈ Finset.range (padAmt + 1), Complex.abs (X jcoef ccol)
  st.mu * listMax ((List.range n).map rowSum)

/-- `Pearls._penalty_parameter_update`: compute `eta` and set
`p1 = 0.1 * eta`, `p2 = 1.0 * eta`. -/
def _penalty_parameter_update (stop_idx : ℕ) (st : PState) : PState :=
  { st with
    p1 := (1 / 10) * penaltyEta st stop_idx,
    p2 := 1 * penaltyEta st stop_idx }

/-- One outer iteration of `Pearls._gradient_descent`:
`v = w + ss * (r - R @ w)`, `vth = _S1(v, ss * p1)`, then per pitch group
`w[gp] = _S2(vth[gp], ss * p2_p)` with
`p2_p = _group_penalty_parameter(vth[gp], p2)`. -/
def gdIter (st : PState) (w : ℕ → ℂ) : ℕ → ℂ :=
  let n := st.P * st.H
  let v : ℕ → ℂ := fun i => w i + (st.ss : ℂ) * (st.r i - matVec n st.R w i)
  let vth : ℕ → ℂ := fun i => S1 (v i) (st.ss * st.p1)
  fun j =>
    let p := j / st.H
    let p2p := _group_penalty_parameter (vth (st.H * p)) st.p2
    ((S2coeff (groupNorm st.H vth p) (st.ss * p2p) : ℝ) : ℂ) * vth j

/-- `Pearls._gradient_descent`: `mgi` outer iterations of `gdIter`. -/
def _gradient_descent (st : PState) : PState :=
  { st with w_hat := (gdIter st)^[st.mgi] st.w_hat }

/-- Zero out the coefficients of group `p` of a flat vector
(`self.w_hat[gp] = as_col(np.zeros_like(gp))`). -/
def zeroGroup (H p : ℕ) (w : ℕ → ℂ) : ℕ → ℂ :=
  fun j => if j ∈ Gp H p then 0 else w j

/-- `Pearls._find_active_set`: compute per-group norms of `w_hat`, zero every
group whose norm is `< norm_thresh * max(norms)`, and set
`act = np.argwhere(norms > norm_thresh)` (an absolute comparison against
`norm_thresh` itself in the source). -/
def _find_active_set (st : PState) : PState :=
  let norms : ℕ → ℝ := groupNorm st.H st.w_hat
  let max_norm : ℝ := listMax ((List.range st.P).map norms)
  let pruned : List ℕ :=
    (List.range st.P).filter fun p => decide (norms p < st.norm_thresh * max_norm)
  { st with
    w_hat := pruned.foldl (fun w p => zeroGroup st.H p w) st.w_hat,
    act := (List.range st.P).filter fun p => decide (st.norm_thresh < norms p) }

/-- `Pearls._save_history`: write column `idx` of each history buffer. -/
def _save_history (idx : ℕ) (st : PState) : PState :=
  { st with
    w_hat_hist := fun i j => if j = idx then st.w_hat i else st.w_hat_hist i j,
    freq_hist := fun p j => if j = idx then st.f_mat p 0 else st.freq_hist p j,
    rls_hist := fun i j => if j = idx then st.rls i else st.rls_hist i j,
    p1_hist := fun j => if j = idx then st.p1 else st.p1_hist j,
    p2_hist := fun j => if j = idx then st.p2 else st.p2_hist j }

/-- The matrix inverted by `Pearls._rls_update` for active pitch `p`:
`R[np.ix_(gp, gp)] + I_xi` with `I_xi = xi * eye(H)`. -/
def rlsBlock (st : PState) (p : ℕ) : Matrix (Fin st.H) (Fin st.H) ℂ :=
  Matrix.of fun i j =>
    st.R (st.H * p + (i : ℕ)) (st.H * p + (j : ℕ)) +
      if i = j then (st.xi : ℂ) else 0

/-- The updated RLS coefficients of active pitch `p` in `Pearls._rls_update`:
`rp = r[gp] - R[np.ix_(gp, qp)] @ t_rls[qp]` with `qp = setdiff1d(S, gp)`,
then `inv(R[gp, gp] + I_xi) @ (rp + xi * t_rls[gp])`.  Reads only the
snapshot `t_rls`. -/
def rlsGroupNew (st : PState) (tRls : ℕ → ℂ) (S : List ℕ) (p : ℕ) (i : Fin st.H) : ℂ :=
  let gp := Gp st.H p
  let qp := S.filter fun q => decide (q ∉ gp)
  let rp : Fin st.H → ℂ := fun i2 =>
    st.r (st.H * p + (i2 : ℕ)) -
      (qp.map fun q => st.R (st.H * p + (i2 : ℕ)) q * tRls q).sum
  let colPart : Fin st.H → ℂ := fun j => rp j + (st.xi : ℂ) * tRls (st.H * p + (j : ℕ))
  ∑ j, (rlsBlock st p)⁻¹ i j * colPart j

/-- The loop of `Pearls._rls_update` over the active pitches, threading the
written coefficient vector; `none` models the `LinAlgError` that
`np.linalg.inv` raises on a singular matrix. -/
def rlsLoop (st : PState) (tRls : ℕ → ℂ) (S : List ℕ) :
    List ℕ → (ℕ → ℂ) → Option (ℕ → ℂ)
  | [], cur => some cur
  | p :: rest, cur =>
    if (rlsBlock st p).det = 0 then none
    else
      rlsLoop st tRls S rest fun j =>
        if h : st.H * p ≤ j ∧ j < st.H * p + st.H then
          rlsGroupNew st tRls S p ⟨j - st.H * p, by omega⟩
        else cur j

/-- `Pearls._rls_update`: `S` is the concatenation of the active groups,
`t_rls = np.copy(self.rls)` is the pre-update snapshot; each active group is
refined in turn, then every inactive group of `rls` is zeroed. -/
def _rls_update (st : PState) : Option PState :=
  let S : List ℕ := (st.act.map (Gp st.H)).flatten
  let t_rls := st.rls
  match rlsLoop st t_rls S st.act st.rls with
  | none => none
  | some cur =>
    some { st with
      rls := fun j => if j / st.H < st.P ∧ j / st.H ∉ st.act then 0 else cur j }

/-- `Pearls.dictionary_update`: reshapes the RLS estimate, computes per-pitch
norms and the significant pitches (`norms > max_norm * 0.05`), and for each
one a local estimate of its number of harmonics; all of these are local
variables, the frequency write-back is commented out / unfinished in the
source, so the state is returned unchanged. -/
def dictionary_update (st : PState) : PState :=
  let norms : ℕ → ℝ := groupNorm st.H st.rls
  let max_norm : ℝ := listMax ((List.range st.P).map norms)
  let _sig_pitches : List ℕ :=
    (List.range st.P).filter fun p => decide (max_norm * (1 / 20) < norms p)
  st

/-- One iteration of the loop body of `Pearls.run_algorithm` at sample `idx`
(with `fs_upd` permanently `False` in the source): penalty update with
`stop_idx = idx + 1`, then time/basis update, covariance update, gradient
descent, active-set update, conditional RLS update (`idx > 50`), periodic
dictionary update (`idx % 100 == 0`), and history save. -/
def step (idx : ℕ) (st : PState) : Option PState :=
  let st1 := _penalty_parameter_update (idx + 1) st
  let sval := st.s.getD idx 0
  let st2 := _increment_time_vars st1
  let st3 := _update_a false st2
  let st4 := _update_r sval st3
  let st5 := _gradient_descent st4
  let st6 := _find_active_set st5
  (if 50 < idx then _rls_update st6 else some st6).map fun st7 =>
    _save_history idx (if idx % 100 = 0 then dictionary_update st7 else st7)

/-- The first `n` iterations of the `Pearls.run_algorithm` loop. -/
def runUpTo (st : PState) : ℕ → Option PState
  | 0 => some st
  | n + 1 => (runUpTo st n).bind (step n)

/-- `Pearls.run_algorithm`: the loop over every sample of the signal. -/
def run_algorithm (st : PState) : Option PState := runUpTo st st.s.length

/-- The constructor arguments of `Pearls.__init__`. -/
structure Config where
  s : List ℝ
  lambda_ : ℝ
  xi : ℝ
  H : ℕ
  fs : ℝ
  K_msecs : ℝ
  p1 : ℝ
  p2 : ℝ
  ss : ℝ
  mgi : ℕ
  mu : ℝ

/-- The pitch grid computed on line 67 of `pearls.py` and immediately
discarded: `np.arange(f_int[0], f_int[1] + 0.001, f_spacing)`. -/
def arangeGrid (f_int : ℝ × ℝ) (f_spacing : ℝ) : List ℝ :=
  npArange f_int.1 (f_int.2 + 1 / 1000) f_spacing

/-- The pitch grid actually used, hardcoded on line 68 of `pearls.py`:
`np.array([100, 278.2, 300, 400, 500])`. -/
def hardcodedGrid : List ℝ := [100, 2782 / 10, 300, 400, 500]

/-- `Pearls.__init__` followed by `Pearls.initialize_variables`: note that the
grid derived from `f_int` and `f_spacing` is overwritten by the hardcoded
list, `Delta = _get_window_length(lambda_)`, `Lambda_` is the decay diagonal
`lambda^(Delta-1-i)`, the basis window is created by `_update_a(True)` on
`tvec = t[0:K]`, `R = a @ ct(a)`, `r = s[0] * conj(a)`, `rls = w_hat = 0`,
`act = arange(P)`, and all history buffers start at zero. -/
def initialize_variables (cfg : Config) (f_int : ℝ × ℝ) (f_spacing : ℝ) : PState :=
  let _ps0 := arangeGrid f_int f_spacing
  let ps := hardcodedGrid
  let P := ps.length
  let K : ℕ := (⌊cfg.K_msecs * (1 / 1000) * cfg.fs⌋).toNat
  let Delta : ℕ := (_get_window_length cfg.lambda_).toNat
  let st0 : PState :=
    { s := cfg.s, lambda_ := cfg.lambda_, xi := cfg.xi, H := cfg.H, fs := cfg.fs,
      K := K, p1 := cfg.p1, p2 := cfg.p2, ss := cfg.ss, mgi := cfg.mgi, mu := cfg.mu,
      norm_thresh := 1 / 100, P := P,
      f_mat := fun p h => ((h + 1 : ℕ) : ℝ) * ps.getD p 0,
      Delta := Delta,
      Lambda_ := fun i => cfg.lambda_ ^ (Delta - 1 - i),
      t_stop := K,
      A := fun _ _ => 0, a := fun _ => 0, R := fun _ _ => 0, r := fun _ => 0,
      rls := fun _ => 0, w_hat := fun _ => 0,
      act := List.range P,
      w_hat_hist := fun _ _ => 0, rls_hist := fun _ _ => 0,
      freq_hist := fun _ _ => 0, p1_hist := fun _ => 0, p2_hist := fun _ => 0 }
  let st1 := _update_a true st0
  { st1 with
    R := fun i j => st1.a i * (starRingEnd ℂ) (st1.a j),
    r := fun i => ((cfg.s.getD 0 0 : ℝ) : ℂ) * (starRingEnd ℂ) (st1.a i) }

/-- The active set as claim C1 states it: exactly the groups that the prune
step does not zero, i.e. those whose norm is not strictly below
`norm_thresh` times the maximal group norm. -/
def claimedActiveSet (st : PState) : List ℕ :=
  let norms : ℕ → ℝ := groupNorm st.H st.w_hat
  let max_norm : ℝ := listMax ((List.range st.P).map norms)
  (List.range st.P).filter fun p => decide (¬ norms p < st.norm_thresh * max_norm)

/-- Modelled from the spec (claim C5): the penalty level
`eta = mu * ||(decay_weighted_basis_window)ᴴ * signal_window||_inf` where
window position `i` (oldest to newest) is weighted by
`lambda^(Delta-1-i)` and, when fewer than `Delta` samples have elapsed,
the signal window holds the elapsed samples zero-padded on the left. -/
def specPenaltyEta (st : PState) (stop_idx : ℕ) : ℝ :=
  let n := st.P * st.H
  let AWin : ℕ → ℕ → ℂ := fun i j => st.A (st.K - st.Delta + i) j
  let sWinSpec : ℕ → ℝ := fun i =>
    if i < st.Delta - stop_idx then 0 else st.s.getD (stop_idx + i - st.Delta) 0
  st.mu * listMax ((List.range n).map fun j =>
    Complex.abs (∑ i ∈ Finset.range st.Delta,
      (starRingEnd ℂ) ((st.lambda_ ^ (st.Delta - 1 - i) : ℝ) * AWin i j) *
        ((sWinSpec i : ℝ) : ℂ)))

/-- The per-sample step in the stage order stated by claim C2 (and section 2
of the spec): basis-window update first, then covariance update, then the
penalty-parameter update, then solve, prune, conditional RLS, periodic
dictionary update and history append. -/
def claimOrderStep (idx : ℕ) (st : PState) : Option PState :=
  let sval := st.s.getD idx 0
  let st1 := _update_a false (_increment_time_vars st)
  let st2 := _update_r sval st1
  let st3 := _penalty_parameter_update (idx + 1) st2
  let st4 := _gradient_descent st3
  let st5 := _find_active_set st4
  (if 50 < idx then _rls_update st5 else some st5).map fun st6 =>
    _save_history idx (if idx % 100 = 0 then dictionary_update st6 else st6)

/-- Lift a pure stage update to the `Option` pipeline. -/
def liftStage (f : PState → PState) : PState → Option PState := fun st => some (f st)

/-- Sequential composition of a list of fallible stage updates. -/
def composeStages : List (PState → Option PState) → PState → Option PState
  | [], st => some st
  | f :: rest, st => (f st).bind (composeStages rest)

/-- A small concrete state (P = 1, H = 1, K = 2, Delta = 2, with basis-window
rows 2 and 3 and signal [1, 0]) used to evaluate the penalty stage. -/
def stSmall : PState :=
  { s := [1, 0], lambda_ := 1, xi := 1, H := 1, fs := 1, K := 2, p1 := 0, p2 := 0,
    ss := 1, mgi := 0, mu := 1, norm_thresh := 1 / 100, P := 1,
    f_mat := fun _ _ => 0, Delta := 2, Lambda_ := fun _ => 1, t_stop := 2,
    A := fun i _ => if i = 0 then ((2 : ℝ) : ℂ) else ((3 : ℝ) : ℂ),
    a := fun _ => 1,
    R := fun _ _ => 0, r := fun _ => 0, rls := fun _ => 0, w_hat := fun _ => 0,
    act := [], w_hat_hist := fun _ _ => 0, rls_hist := fun _ _ => 0,
    freq_hist := fun _ _ => 0, p1_hist := fun _ => 0, p2_hist := fun _ => 0 }

/-- A concrete state with two pitch groups whose norms are all 1/200: nothing
is pruned, but the absolute activity test `norms > 0.01` also fails. -/
def stC1 : PState :=
  { s := [], lambda_ := 1, xi := 1, H := 1, fs := 1, K := 1, p1 := 0, p2 := 0,
    ss := 1, mgi := 0, mu := 1, norm_thresh := 1 / 100, P := 2,
    f_mat := fun _ _ => 0, Delta := 1, Lambda_ := fun _ => 1, t_stop := 1,
    A := fun _ _ => 0, a := fun _ => 0, R := fun _ _ => 0, r := fun _ => 0,
    rls := fun _ => 0, w_hat := fun _ => ((1 / 200 : ℝ) : ℂ),
    act := [], w_hat_hist := fun _ _ => 0, rls_hist := fun _ _ => 0,
    freq_hist := fun _ _ => 0, p1_hist := fun _ => 0, p2_hist := fun _ => 0 }

/-- A concrete state whose single active group has
`R[gp, gp] + xi * I = 0`, an exactly singular RLS system. -/
def stC3 : PState :=
  { s := [], lambda_ := 1, xi := 1, H := 1, fs := 1, K := 1, p1 := 0, p2 := 0,
    ss := 1, mgi := 0, mu := 1, norm_thresh := 1 / 100, P := 1,
    f_mat := fun _ _ => 0, Delta := 1, Lambda_ := fun _ => 1, t_stop := 1,
    A := fun _ _ => 0, a := fun _ => 0, R := fun _ _ => (-1 : ℂ), r := fun _ => 0,
    rls := fun _ => 0, w_hat := fun _ => 0,
    act := [0], w_hat_hist := fun _ _ => 0, rls_hist := fun _ _ => 0,
    freq_hist := fun _ _ => 0, p1_hist := fun _ => 0, p2_hist := fun _ => 0 }

/-- A concrete configuration with an all-zero three-sample signal. -/
def cfg0 : Config :=
  { s := [0, 0, 0], lambda_ := 1 / 2, xi := 1, H := 1, fs := 1, K_msecs := 2000,
    p1 := 0, p2 := 0, ss := 1, mgi := 1, mu := 1 }

/-- The state built from `cfg0`. -/
def init0 : PState := initialize_variables cfg0 (0, 0) 0

/-- The state reached after the first loop iteration on `init0` (sample 0:
no RLS update, dictionary update runs). -/
def stepResult0 : PState :=
  _save_history 0 (dictionary_update (_find_active_set (_gradient_descent
    (_update_r (init0.s.getD 0 0) (_update_a false (_increment_time_vars
      (_penalty_parameter_update 1 init0)))))))

end Pearls

/-! Theorems. -/

open Pearls

/-- Claim C4 (code evaluation at the failing input): the pitch-candidate grid
is not derived from `f_int` and `f_spacing`.  `initialize_variables` uses the
hardcoded grid `[100, 278.2, 300, 400, 500]` for every caller input (so
`P = 5` always), and that grid differs from the arithmetic progression the
claim prescribes, e.g. for `f_int = (50, 350)`, `f_spacing = 100`. -/
theorem C4_hardcoded_grid :
    (∀ (cfg : Config) (f_int : ℝ × ℝ) (f_spacing : ℝ),
        (initialize_variables cfg f_int f_spacing).P = 5 ∧
        ∀ p, (initialize_variables cfg f_int f_spacing).f_mat p 0 =
          hardcodedGrid.getD p 0) ∧
    (arangeGrid (50, 350) 100).length = 4 ∧ hardcodedGrid.length = 5 ∧
      hardcodedGrid.getD 0 0 = 100 ∧ (arangeGrid (50, 350) 100).getD 0 0 = 50 := by
  have harange : (⌈(((350 : ℝ) + 1 / 1000) - 50) / 100⌉ : ℤ) = 4 := by
    rw [Int.ceil_eq_iff]
    norm_num
  have hrepr : arangeGrid (50, 350) 100 =
      (List.range (⌈(((350 : ℝ) + 1 / 1000) - 50) / 100⌉).toNat).map
        (fun k : ℕ => (50 : ℝ) + (k : ℝ) * 100) := rfl
  refine ⟨?_, ?_, rfl, rfl, ?_⟩
  · intro cfg f_int f_spacing
    refine ⟨rfl, fun p => ?_⟩
    show ((0 + 1 : ℕ) : ℝ) * hardcodedGrid.getD p 0 = hardcodedGrid.getD p 0
    norm_num
  · rw [hrepr, List.length_map, List.length_range, harange]
    rfl
  · rw [hrepr, harange]
    norm_num

/-- Claim C6 (counterexample): at `lambda = 1/2` the computed window length is
`int(log(0.01)/log(0.5)) = 6` (truncation), while the claimed value is
`ceil(log(0.01)/log(0.5)) = 7`. -/
theorem C6_counterexample :
    _get_window_length (1 / 2) = 6 ∧
      ⌈Real.log (1 / 100) / Real.log (1 / 2)⌉ = 7 := by
  have h2 : (0 : ℝ) < Real.log 2 := Real.log_pos (by norm_num)
  have hx : Real.log (1 / 100) / Real.log (1 / 2) = Real.log 100 / Real.log 2 := by
    rw [show (1 / 100 : ℝ) = 100⁻¹ by norm_num, show (1 / 2 : ℝ) = 2⁻¹ by norm_num,
      Real.log_inv, Real.log_inv, neg_div_neg_eq]
  have h64 : (6 : ℝ) * Real.log 2 = Real.log 64 := by
    rw [show (64 : ℝ) = 2 ^ 6 by norm_num, Real.log_pow]
    push_cast
    ring
  have h128 : (7 : ℝ) * Real.log 2 = Real.log 128 := by
    rw [show (128 : ℝ) = 2 ^ 7 by norm_num, Real.log_pow]
    push_cast
    ring
  have hlo : 6 < Real.log 100 / Real.log 2 := by
    rw [lt_div_iff₀ h2, h64]
    exact Real.log_lt_log (by norm_num) (by norm_num)
  have hhi : Real.log 100 / Real.log 2 < 7 := by
    rw [div_lt_iff₀ h2, h128]
    exact Real.log_lt_log (by norm_num) (by norm_num)
  constructor
  · rw [_get_window_length, pyInt, hx, if_pos (by linarith), Int.floor_eq_iff]
    push_cast
    exact ⟨hlo.le, by linarith⟩
  · rw [hx, Int.ceil_eq_iff]
    push_cast
    exact ⟨by linarith, hhi.le⟩

/-- Claim C6 (amended): for every `lambda` in `(0, 1)` the window length is
the floor (Python `int` truncation) of `log(0.01)/log(lambda)`, not its
ceiling. -/
theorem C6_amended (lambda_ : ℝ) (h0 : 0 < lambda_) (h1 : lambda_ < 1) :
    _get_window_length lambda_ = ⌊Real.log (1 / 100) / Real.log lambda_⌋ := by
  have hnum : Real.log (1 / 100) ≤ 0 := (Real.log_neg (by norm_num) (by norm_num)).le
  have hden : Real.log lambda_ ≤ 0 := (Real.log_neg h0 h1).le
  rw [_get_window_length, pyInt, if_pos (div_nonneg_iff.mpr (Or.inr ⟨hnum, hden⟩))]

/-- Witness for C6_amended at `lambda = 1/2`. -/
theorem C6_amended_witness :
    (0 : ℝ) < 1 / 2 ∧ (1 / 2 : ℝ) < 1 ∧
      _get_window_length (1 / 2) = ⌊Real.log (1 / 100) / Real.log (1 / 2)⌋ :=
  ⟨by norm_num, by norm_num, C6_amended (1 / 2) (by norm_num) (by norm_num)⟩

/-- The soft L1 threshold of zero is zero. -/
theorem S1_zero (alpha : ℝ) : S1 0 alpha = 0 := by
  simp [S1]

/-- Evaluation of `_S1` on a nonnegative real input. -/
theorem S1_ofReal (q alpha : ℝ) (hq : 0 ≤ q) :
    S1 ((q : ℝ) : ℂ) alpha =
      (((max (q - alpha) 0 / (max (q - alpha) 0 + alpha + eps10)) * q : ℝ) : ℂ) := by
  rw [S1]
  rw [Complex.abs_ofReal, abs_of_nonneg hq, Complex.ofReal_mul]

/-- The scalar core of claim C8: one application of `_S1` is a fixed point of
a second application exactly when it is already zero; the `1e-10` smoothing
makes the second application shrink every nonzero output strictly. -/
theorem S1_idem_iff (x : ℂ) (alpha : ℝ) (ha : 0 ≤ alpha) :
    S1 (S1 x alpha) alpha = S1 x alpha ↔ S1 x alpha = 0 := by
  constructor
  · intro h
    by_contra hy
    set y := S1 x alpha with hydef
    have hrepr : S1 y alpha =
        (((max (Complex.abs y - alpha) 0 /
            (max (Complex.abs y - alpha) 0 + alpha + eps10)) : ℝ) : ℂ) * y := rfl
    set m := max (Complex.abs y - alpha) 0 with hm
    have hm0 : 0 ≤ m := le_max_right _ _
    have hden : m + alpha + eps10 ≠ 0 := by
      have : (0 : ℝ) < eps10 := by norm_num [eps10]
      positivity
    have hc : (((m / (m + alpha + eps10) : ℝ) : ℂ) - 1) * y = 0 := by
      rw [sub_mul, one_mul, ← hrepr, h]
      exact sub_self y
    rcases mul_eq_zero.mp hc with hc1 | hc2
    · have hc1' : ((m / (m + alpha + eps10) : ℝ) : ℂ) = ((1 : ℝ) : ℂ) := by
        rw [Complex.ofReal_one]
        linear_combination hc1
      have hreal : m / (m + alpha + eps10) = 1 := Complex.ofReal_inj.mp hc1'
      have : m = m + alpha + eps10 := by
        field_simp at hreal
        linarith
      have : alpha + eps10 = 0 := by linarith
      have : (0 : ℝ) < alpha + eps10 := by
        have : (0 : ℝ) < eps10 := by norm_num [eps10]
        linarith
      linarith
    · exact hy hc2
  · intro h
    rw [h, S1_zero]

/-- Claim C8 (counterexample): `_S1` is not idempotent; at the vector
`[3]` with threshold `1` the second application shrinks the output again. -/
theorem C8_counterexample :
    S1 (S1 ((3 : ℝ) : ℂ) 1) 1 ≠ S1 ((3 : ℝ) : ℂ) 1 := by
  rw [S1_ofReal 3 1 (by norm_num)]
  have h1 : max ((3 : ℝ) - 1) 0 / (max ((3 : ℝ) - 1) 0 + 1 + eps10) * 3 =
      6 / (3 + eps10) := by
    rw [show max ((3 : ℝ) - 1) 0 = 2 by norm_num]
    rw [eps10]
    norm_num
  rw [h1]
  rw [S1_ofReal (6 / (3 + eps10)) 1 (by norm_num [eps10])]
  intro h
  have h2 := Complex.ofReal_inj.mp h
  rw [eps10] at h2
  norm_num at h2

/-- Claim C8 (amended): for every complex vector `x` and threshold `a ≥ 0`,
applying `_S1` twice equals applying it once exactly when the single
application is already identically zero; on any nonzero output the second
application shrinks strictly, so idempotence fails in general. -/
theorem C8_amended (v : ℕ → ℂ) (alpha : ℝ) (ha : 0 ≤ alpha) :
    (∀ i, S1 (S1 (v i) alpha) alpha = S1 (v i) alpha) ↔
      ∀ i, S1 (v i) alpha = 0 :=
  forall_congr' fun i => S1_idem_iff (v i) alpha ha

/-- Witness for C8_amended at the constant vector `[3, 3, ...]`, threshold 1. -/
theorem C8_amended_witness :
    (0 : ℝ) ≤ 1 ∧
      ((∀ i : ℕ, S1 (S1 ((fun _ : ℕ => ((3 : ℝ) : ℂ)) i) 1) 1 =
          S1 ((fun _ : ℕ => ((3 : ℝ) : ℂ)) i) 1) ↔
        ∀ i : ℕ, S1 ((fun _ : ℕ => ((3 : ℝ) : ℂ)) i) 1 = 0) :=
  ⟨by norm_num, C8_amended (fun _ : ℕ => ((3 : ℝ) : ℂ)) 1 (by norm_num)⟩

/-- Coefficient index `j` lies in group `p` exactly when `j / H = p`. -/
theorem mem_Gp_iff (H p j : ℕ) (hH : 0 < H) : j ∈ Gp H p ↔ j / H = p := by
  simp only [Gp, List.mem_map, List.mem_range]
  constructor
  · rintro ⟨h0, hh, rfl⟩
    rw [Nat.mul_add_div hH, Nat.div_eq_of_lt hh, add_zero]
  · intro hdiv
    exact ⟨j % H, Nat.mod_lt _ hH, by rw [← hdiv]; exact Nat.div_add_mod j H⟩

/-- Folding `zeroGroup` over a list of pitches zeroes exactly the
coefficients whose group lies in the list. -/
theorem zeroGroup_foldl (H : ℕ) (hH : 0 < H) (L : List ℕ) (w : ℕ → ℂ) (j : ℕ) :
    (L.foldl (fun w2 p => zeroGroup H p w2) w) j = if j / H ∈ L then 0 else w j := by
  induction L generalizing w with
  | nil => simp
  | cons p rest ih =>
    rw [List.foldl_cons, ih]
    by_cases hmem : j / H ∈ rest
    · simp [hmem]
    · rw [if_neg hmem]
      by_cases hp : j / H = p
      · rw [show zeroGroup H p w j = if j ∈ Gp H p then 0 else w j from rfl,
          if_pos ((mem_Gp_iff H p j hH).mpr hp), if_pos (by simp [hp])]
      · rw [show zeroGroup H p w j = if j ∈ Gp H p then 0 else w j from rfl,
          if_neg (fun hmm => hp ((mem_Gp_iff H p j hH).mp hmm)),
          if_neg (by simp [hp, hmem])]

/-- Claim C1 (counterexample): a weight vector whose two group norms are both
`1/200`.  No group is pruned (no norm is below `0.01` times the maximal norm
`1/200`), so the claimed active set is `[0, 1]`, but the source computes
`act = argwhere(norms > norm_thresh)` with the absolute threshold `0.01` and
gets the empty set. -/
theorem C1_counterexample :
    groupNorm stC1.H stC1.w_hat 0 = 1 / 200 ∧
      (_find_active_set stC1).act ≠ claimedActiveSet stC1 := by
  have hnorm : ∀ p, groupNorm stC1.H stC1.w_hat p = 1 / 200 := by
    intro p
    rw [show groupNorm stC1.H stC1.w_hat p =
        Real.sqrt (∑ h ∈ Finset.range 1, Complex.normSq ((1 / 200 : ℝ) : ℂ)) from rfl]
    rw [Finset.sum_range_one, Complex.normSq_ofReal,
      Real.sqrt_mul_self (by norm_num : (0 : ℝ) ≤ 1 / 200)]
  constructor
  · exact hnorm 0
  · have hact : (_find_active_set stC1).act = [] := by
      rw [show (_find_active_set stC1).act =
          (List.range stC1.P).filter
            (fun p => decide (stC1.norm_thresh < groupNorm stC1.H stC1.w_hat p)) from rfl]
      rw [List.filter_eq_nil_iff]
      intro p _
      rw [decide_eq_true_eq, hnorm]
      rw [show stC1.norm_thresh = 1 / 100 from rfl]
      norm_num
    have hmax : listMax ((List.range stC1.P).map (groupNorm stC1.H stC1.w_hat)) = 1 / 200 := by
      rw [show (List.range stC1.P) = [0, 1] from rfl]
      rw [List.map_cons, List.map_cons, List.map_nil, hnorm, hnorm, listMax,
        List.foldr_cons, List.foldr_cons, List.foldr_nil]
      norm_num
    have hclaimed : claimedActiveSet stC1 = [0, 1] := by
      rw [claimedActiveSet]
      rw [show (List.range stC1.P) = [0, 1] from rfl] at hmax ⊢
      rw [List.filter_eq_self.mpr ?_]
      intro p hp
      rw [decide_eq_true_eq, hmax, hnorm]
      rw [show stC1.norm_thresh = 1 / 100 from rfl]
      norm_num
    rw [hact, hclaimed]
    simp

/-- Claim C1 (amended): the prune step zeroes exactly the groups whose norm
is strictly below `norm_thresh` times the maximal group norm (that part of
the claim holds), but the active set it produces is
`argwhere(norms > norm_thresh)` — an absolute comparison with
`norm_thresh = 0.01`, not the set of non-pruned groups. -/
theorem C1_amended (st : PState) (hH : 0 < st.H) :
    (∀ j, j < st.P * st.H →
        (_find_active_set st).w_hat j =
          if groupNorm st.H st.w_hat (j / st.H) <
              st.norm_thresh *
                listMax ((List.range st.P).map (groupNorm st.H st.w_hat))
          then 0 else st.w_hat j) ∧
    (_find_active_set st).act =
      (List.range st.P).filter
        (fun p => decide (st.norm_thresh < groupNorm st.H st.w_hat p)) := by
  constructor
  · intro j hj
    rw [show (_find_active_set st).w_hat =
        ((List.range st.P).filter fun p =>
            decide (groupNorm st.H st.w_hat p <
              st.norm_thresh *
                listMax ((List.range st.P).map (groupNorm st.H st.w_hat)))).foldl
          (fun w p => zeroGroup st.H p w) st.w_hat from rfl]
    rw [zeroGroup_foldl st.H hH _ st.w_hat j]
    have hjH : j / st.H < st.P := by
      rw [Nat.div_lt_iff_lt_mul hH]
      omega
    by_cases hcond : groupNorm st.H st.w_hat (j / st.H) <
        st.norm_thresh * listMax ((List.range st.P).map (groupNorm st.H st.w_hat))
    · rw [if_pos (by simp [List.mem_filter, List.mem_range, hjH, hcond]), if_pos hcond]
    · rw [if_neg (by simp [List.mem_filter, hcond]), if_neg hcond]
  · rfl

/-- Witness for C1_amended at the concrete state `stC1`. -/
theorem C1_amended_witness :
    0 < stC1.H ∧
      (_find_active_set stC1).act =
        (List.range stC1.P).filter
          (fun p => decide (stC1.norm_thresh < groupNorm stC1.H stC1.w_hat p)) :=
  ⟨Nat.one_pos, (C1_amended stC1 Nat.one_pos).2⟩

/-- The RLS refinement loop fails exactly when some listed group has a
singular regularized system matrix. -/
theorem rlsLoop_eq_none_iff (st : PState) (tRls : ℕ → ℂ) (S : List ℕ) :
    ∀ (l : List ℕ) (cur : ℕ → ℂ),
      rlsLoop st tRls S l cur = none ↔ ∃ p ∈ l, (rlsBlock st p).det = 0 := by
  intro l
  induction l with
  | nil => intro cur; simp [rlsLoop]
  | cons p rest ih =>
    intro cur
    by_cases h : (rlsBlock st p).det = 0
    · simp [rlsLoop, h]
    · rw [show rlsLoop st tRls S (p :: rest) cur =
          if (rlsBlock st p).det = 0 then none
          else rlsLoop st tRls S rest fun j =>
            if h2 : st.H * p ≤ j ∧ j < st.H * p + st.H then
              rlsGroupNew st tRls S p ⟨j - st.H * p, by omega⟩
            else cur j from rfl, if_neg h, ih]
      simp [h]

/-- Claim C3 (counterexample): at a state whose single active group has the
exactly singular system `R[gp, gp] + xi * I = 0`, the RLS update does not
fall back to a pseudo-inverse: `np.linalg.inv` raises and the run aborts
(modelled by `none`). -/
theorem C3_counterexample : _rls_update stC3 = none := by
  have hdet : (rlsBlock stC3 0).det = 0 := by
    have hblock : rlsBlock stC3 0 = Matrix.of fun i j : Fin 1 =>
        ((-1 : ℂ) + if i = j then ((1 : ℝ) : ℂ) else 0) := rfl
    rw [show (rlsBlock stC3 0).det =
        ((-1 : ℂ) + if (0 : Fin 1) = 0 then ((1 : ℝ) : ℂ) else 0) from
      by rw [hblock, Matrix.det_fin_one, Matrix.of_apply]]
    norm_num
  rw [show _rls_update stC3 =
      (match rlsLoop stC3 stC3.rls ((stC3.act.map (Gp stC3.H)).flatten) stC3.act stC3.rls with
        | none => none
        | some cur =>
          some { stC3 with
            rls := fun j =>
              if j / stC3.H < stC3.P ∧ j / stC3.H ∉ stC3.act then 0 else cur j }) from rfl]
  have hloop :
      rlsLoop stC3 stC3.rls ((stC3.act.map (Gp stC3.H)).flatten) stC3.act stC3.rls = none := by
    rw [(rlsLoop_eq_none_iff stC3 stC3.rls _ stC3.act stC3.rls)]
    exact ⟨0, by rw [show stC3.act = [0] from rfl]; simp, hdet⟩
  rw [hloop]

/-- Claim C3 (amended): there is no pseudo-inverse fallback and no warning in
`_rls_update`; in exact arithmetic the solve succeeds exactly when the
regularized system matrix of every active group is nonsingular, and aborts
the run (an uncaught `LinAlgError`) exactly when some active group's matrix
is singular. -/
theorem C3_amended (st : PState) :
    _rls_update st = none ↔ ∃ p ∈ st.act, (rlsBlock st p).det = 0 := by
  rw [show _rls_update st =
      (match rlsLoop st st.rls ((st.act.map (Gp st.H)).flatten) st.act st.rls with
        | none => none
        | some cur =>
          some { st with
            rls := fun j =>
              if j / st.H < st.P ∧ j / st.H ∉ st.act then 0 else cur j }) from rfl]
  rcases hloop : rlsLoop st st.rls ((st.act.map (Gp st.H)).flatten) st.act st.rls with _ | cur
  · simp only []
    constructor
    · intro _
      exact (rlsLoop_eq_none_iff st st.rls _ st.act st.rls).mp hloop
    · intro _
      trivial
  · simp only []
    constructor
    · intro hcontra
      exact absurd hcontra (by simp)
    · intro hex
      have := (rlsLoop_eq_none_iff st st.rls ((st.act.map (Gp st.H)).flatten) st.act st.rls).mpr hex
      rw [hloop] at this
      exact absurd this (by simp)

/-- The dictionary update pass only computes local diagnostics. -/
theorem dictionary_update_eq (st : PState) : dictionary_update st = st := rfl

/-- Evaluation of the penalty level on `stSmall` at `stop_idx = 2` (the full
window `[1, 0]` against the basis rows 2 and 3): `eta = 2`. -/
theorem penaltyEta_stSmall_two : penaltyEta stSmall 2 = 2 := by
  have hslice :
      pySlice stSmall.s (((2 : ℕ) : ℤ) - ((stSmall.Delta : ℕ) : ℤ)) ((2 : ℕ) : ℤ) =
        [1, 0] := rfl
  have hrange : List.range (stSmall.P * stSmall.H) = [0] := rfl
  rw [penaltyEta]
  simp only [hslice, hrange]
  norm_num [stSmall, listMax, Finset.sum_range_succ, Finset.sum_range_zero,
    Complex.conj_ofReal, map_ofNat, Complex.abs_ofNat, Complex.abs_ofReal,
    List.getD_cons_zero, List.getD_cons_succ]

/-- Evaluation of the penalty level at `stop_idx = 2` after the basis-window
update has already run on `stSmall` (the window then holds the basis row 3
followed by the fresh exponential row, which meets the zero signal sample):
`eta = 3`. -/
theorem penaltyEta_stSmall_spec :
    penaltyEta (_update_r (stSmall.s.getD 1 0)
      (_update_a false (_increment_time_vars stSmall))) 2 = 3 := by
  set st2 := _update_r (stSmall.s.getD 1 0)
    (_update_a false (_increment_time_vars stSmall)) with hst2
  have hslice :
      pySlice st2.s (((2 : ℕ) : ℤ) - ((st2.Delta : ℕ) : ℤ)) ((2 : ℕ) : ℤ) = [1, 0] := rfl
  have hrange : List.range (st2.P * st2.H) = [0] := rfl
  rw [penaltyEta]
  simp only [hslice, hrange]
  norm_num [hst2, stSmall, _update_r, _update_a, _increment_time_vars, listMax,
    Finset.sum_range_succ, Finset.sum_range_zero,
    Complex.conj_ofReal, map_ofNat, Complex.abs_ofNat, Complex.abs_ofReal,
    List.getD_cons_zero, List.getD_cons_succ]

/-- Claim C2 (counterexample): on the concrete state `stSmall` at sample
`idx = 1`, the per-sample step of `run_algorithm` differs from the
composition in the claimed stage order, because the source runs the
penalty-parameter update first (on the pre-update basis window), while the
claim places it after the basis and covariance updates: the stored `p1`
values are `0.2` and `0.3` respectively. -/
theorem C2_counterexample : step 1 stSmall ≠ claimOrderStep 1 stSmall := by
  intro h
  have hp := congrArg (Option.map PState.p1) h
  have h1 : (step 1 stSmall).map PState.p1 =
      some ((1 / 10) * penaltyEta stSmall 2) := rfl
  have h2 : (claimOrderStep 1 stSmall).map PState.p1 =
      some ((1 / 10) * penaltyEta (_update_r (stSmall.s.getD 1 0)
        (_update_a false (_increment_time_vars stSmall))) 2) := rfl
  rw [h1, h2, penaltyEta_stSmall_two, penaltyEta_stSmall_spec] at hp
  have h3 := Option.some.inj hp
  norm_num at h3

/-- Mapping a pure function over an optional value is binding with `some`. -/
theorem option_map_eq_bind_some (f : PState → PState) (o : Option PState) :
    o.map f = o.bind fun x => some (f x) := by
  cases o <;> rfl

/-- Claim C2 (amended): the per-sample step equals the composition of the
stage updates with the penalty-parameter update FIRST, then the basis-window
update, covariance update, sparse solve, prune, conditional RLS refinement,
periodic dictionary update and history append. -/
theorem C2_amended (idx : ℕ) (st : PState) :
    step idx st =
      composeStages
        [liftStage (_penalty_parameter_update (idx + 1)),
         liftStage _increment_time_vars,
         liftStage (_update_a false),
         liftStage (_update_r (st.s.getD idx 0)),
         liftStage _gradient_descent,
         liftStage _find_active_set,
         fun st6 => if 50 < idx then _rls_update st6 else some st6,
         liftStage fun st7 => if idx % 100 = 0 then dictionary_update st7 else st7,
         liftStage (_save_history idx)] st := by
  rw [step, option_map_eq_bind_some]
  simp only [composeStages, liftStage, Option.some_bind]

/-- Evaluation of the penalty level on `stSmall` at `stop_idx = 1`
(sample index 0): the Python slice `s[-1:1]` is empty, so the padded window
is all zero and `eta = 0`. -/
theorem penaltyEta_stSmall_one : penaltyEta stSmall 1 = 0 := by
  have hslice :
      pySlice stSmall.s (((1 : ℕ) : ℤ) - ((stSmall.Delta : ℕ) : ℤ)) ((1 : ℕ) : ℤ) =
        ([] : List ℝ) := rfl
  have hrange : List.range (stSmall.P * stSmall.H) = [0] := rfl
  rw [penaltyEta]
  simp only [hslice, hrange]
  norm_num [stSmall, listMax, Finset.sum_range_succ, Finset.sum_range_zero]

/-- Claim C5 (code evaluation at the failing input): at sample index 0 (one
elapsed sample, window width `Delta = 2`) the source computes the signal
window as the empty Python slice `s[-1:1]` and obtains `eta = 0`, hence
`p1 = p2 = 0`; the penalty level the claim describes — the elapsed samples
zero-padded on the left — is `3` on the same state. -/
theorem C5_code_eval :
    (_penalty_parameter_update 1 stSmall).p1 = 0 ∧
      (_penalty_parameter_update 1 stSmall).p2 = 0 ∧
      specPenaltyEta stSmall 1 = 3 := by
  refine ⟨?_, ?_, ?_⟩
  · rw [show (_penalty_parameter_update 1 stSmall).p1 =
        (1 / 10) * penaltyEta stSmall 1 from rfl, penaltyEta_stSmall_one]
    norm_num
  · rw [show (_penalty_parameter_update 1 stSmall).p2 =
        1 * penaltyEta stSmall 1 from rfl, penaltyEta_stSmall_one]
    norm_num
  · rw [specPenaltyEta]
    have hrange : List.range (stSmall.P * stSmall.H) = [0] := rfl
    simp only [hrange]
    norm_num [stSmall, listMax, Finset.sum_range_succ, Finset.sum_range_zero,
      Complex.conj_ofReal, map_ofNat, Complex.abs_ofNat, Complex.abs_ofReal,
      List.getD_cons_zero, List.getD_cons_succ]

/-- A list of zeros yields zero under `getD`. -/
theorem getD_zeros (l : List ℝ) (h : ∀ x ∈ l, x = 0) : ∀ n, l.getD n 0 = 0 := by
  induction l with
  | nil => intro n; simp
  | cons x xs ih =>
    intro n
    cases n with
    | zero => simpa using h x (by simp)
    | succ m =>
      rw [List.getD_cons_succ]
      exact ih (fun y hy => h y (by simp [hy])) m

/-- The group norm of the zero vector is zero. -/
theorem groupNorm_zero (H : ℕ) (w : ℕ → ℂ) (hw : ∀ j, w j = 0) (p : ℕ) :
    groupNorm H w p = 0 := by
  rw [groupNorm, Finset.sum_eq_zero fun h _ => by rw [hw]; exact map_zero _]
  exact Real.sqrt_zero

/-- A matrix times the zero vector is zero. -/
theorem matVec_zero (n : ℕ) (M : ℕ → ℕ → ℂ) (w : ℕ → ℂ) (hw : ∀ j, w j = 0) (i : ℕ) :
    matVec n M w i = 0 := by
  rw [matVec]
  exact Finset.sum_eq_zero fun j _ => by rw [hw, mul_zero]

/-- One gradient-descent iteration maps the zero weight vector to zero when
the cross-correlation vector is zero. -/
theorem gdIter_zero (st : PState) (hr : ∀ i, st.r i = 0) (w : ℕ → ℂ)
    (hw : ∀ i, w i = 0) (j : ℕ) : gdIter st w j = 0 := by
  have hv : ∀ i, w i + (st.ss : ℂ) * (st.r i - matVec (st.P * st.H) st.R w i) = 0 := by
    intro i
    rw [hw i, hr i, matVec_zero (st.P * st.H) st.R w hw i, sub_zero, mul_zero, add_zero]
  simp only [gdIter]
  rw [hv j, S1_zero, mul_zero]

/-- The gradient descent stage keeps the weight vector at zero when the
cross-correlation vector is zero. -/
theorem gd_w_hat_zero (st : PState) (hr : ∀ i, st.r i = 0)
    (hw : ∀ i, st.w_hat i = 0) : ∀ j, (_gradient_descent st).w_hat j = 0 := by
  suffices h : ∀ (n : ℕ) (w : ℕ → ℂ), (∀ i, w i = 0) → ∀ j, (gdIter st)^[n] w j = 0 from
    fun j => h st.mgi st.w_hat hw j
  intro n
  induction n with
  | zero => intro w hw0 j; simpa using hw0 j
  | succ m ih =>
    intro w hw0 j
    rw [Function.iterate_succ_apply]
    exact ih (gdIter st w) (fun i => gdIter_zero st hr w hw0 i) j

/-- Folding `zeroGroup` preserves the zero vector. -/
theorem zeroGroup_foldl_zero (H : ℕ) (L : List ℕ) (w : ℕ → ℂ) (hw : ∀ j, w j = 0) :
    ∀ j, (L.foldl (fun w2 p => zeroGroup H p w2) w) j = 0 := by
  induction L generalizing w with
  | nil => intro j; simpa using hw j
  | cons p rest ih =>
    intro j
    rw [List.foldl_cons]
    refine ih (zeroGroup H p w) (fun i => ?_) j
    rw [show zeroGroup H p w i = if i ∈ Gp H p then 0 else w i from rfl]
    split
    · rfl
    · exact hw i

/-- On a zero weight vector the active-set stage keeps the weights at zero
and produces an empty active set. -/
theorem fas_zero (st : PState) (hw : ∀ i, st.w_hat i = 0)
    (hth : st.norm_thresh = 1 / 100) :
    (∀ i, (_find_active_set st).w_hat i = 0) ∧ (_find_active_set st).act = [] := by
  constructor
  · intro i
    rw [show (_find_active_set st).w_hat =
        ((List.range st.P).filter fun p =>
            decide (groupNorm st.H st.w_hat p <
              st.norm_thresh *
                listMax ((List.range st.P).map (groupNorm st.H st.w_hat)))).foldl
          (fun w p => zeroGroup st.H p w) st.w_hat from rfl]
    exact zeroGroup_foldl_zero st.H _ st.w_hat hw i
  · rw [show (_find_active_set st).act =
        (List.range st.P).filter
          (fun p => decide (st.norm_thresh < groupNorm st.H st.w_hat p)) from rfl]
    rw [List.filter_eq_nil_iff]
    intro p _
    rw [decide_eq_true_eq, groupNorm_zero st.H st.w_hat hw p, hth]
    norm_num

/-- When the RLS loop succeeds, only the `rls` field of the state changes. -/
theorem rls_update_some_fields (st st2 : PState) (h : _rls_update st = some st2) :
    st2.s = st.s ∧ st2.norm_thresh = st.norm_thresh ∧ st2.f_mat = st.f_mat ∧
      st2.R = st.R ∧ st2.r = st.r ∧ st2.w_hat = st.w_hat ∧ st2.act = st.act ∧
      st2.w_hat_hist = st.w_hat_hist ∧ st2.rls_hist = st.rls_hist ∧
      st2.freq_hist = st.freq_hist := by
  rw [show _rls_update st =
      (match rlsLoop st st.rls ((st.act.map (Gp st.H)).flatten) st.act st.rls with
        | none => none
        | some cur =>
          some { st with
            rls := fun j =>
              if j / st.H < st.P ∧ j / st.H ∉ st.act then 0 else cur j }) from rfl] at h
  rcases hloop : rlsLoop st st.rls ((st.act.map (Gp st.H)).flatten) st.act st.rls with _ | cur
  · rw [hloop] at h
    cases h
  · rw [hloop] at h
    have h2 := (Option.some.inj h).symm
    subst h2
    exact ⟨rfl, rfl, rfl, rfl, rfl, rfl, rfl, rfl, rfl, rfl⟩

/-- With an empty active set and a zero RLS vector the RLS stage succeeds
and keeps the RLS vector at zero. -/
theorem rls_update_empty_some (st : PState) (hact : st.act = [])
    (hrls : ∀ i, st.rls i = 0) :
    ∃ st2, _rls_update st = some st2 ∧ ∀ i, st2.rls i = 0 := by
  refine ⟨{ st with
    rls := fun j => if j / st.H < st.P ∧ j / st.H ∉ st.act then 0 else st.rls j },
    ?_, ?_⟩
  · rw [show _rls_update st =
        (match rlsLoop st st.rls ((st.act.map (Gp st.H)).flatten) st.act st.rls with
          | none => none
          | some cur =>
            some { st with
              rls := fun j =>
                if j / st.H < st.P ∧ j / st.H ∉ st.act then 0 else cur j }) from rfl]
    rw [hact]
    rfl
  · intro i
    show (if i / st.H < st.P ∧ i / st.H ∉ st.act then 0 else st.rls i) = 0
    split
    · rfl
    · exact hrls i

set_option maxHeartbeats 1600000 in
/-- Under an all-zero signal each loop iteration succeeds and preserves the
all-zero weights, RLS vectors, cross-correlation vector and histories, and
leaves the active set empty (the prune stage empties it before the RLS stage
can run). -/
theorem step_zero (idx : ℕ) (st : PState)
    (hs : ∀ x ∈ st.s, x = 0) (hth : st.norm_thresh = 1 / 100)
    (hw : ∀ i, st.w_hat i = 0) (hrls : ∀ i, st.rls i = 0) (hr : ∀ i, st.r i = 0)
    (hwh : ∀ i j, st.w_hat_hist i j = 0) (hrh : ∀ i j, st.rls_hist i j = 0) :
    ∃ st2, step idx st = some st2 ∧ st2.s = st.s ∧ st2.norm_thresh = 1 / 100 ∧
      (∀ i, st2.w_hat i = 0) ∧ (∀ i, st2.rls i = 0) ∧ (∀ i, st2.r i = 0) ∧
      (∀ i j, st2.w_hat_hist i j = 0) ∧ (∀ i j, st2.rls_hist i j = 0) ∧
      st2.act = [] := by
  set st4 := _update_r (st.s.getD idx 0)
    (_update_a false (_increment_time_vars (_penalty_parameter_update (idx + 1) st)))
    with hst4
  set st5 := _gradient_descent st4 with hst5
  set st6 := _find_active_set st5 with hst6
  have hr4 : ∀ i, st4.r i = 0 := by
    intro i
    rw [hst4]
    show (st.lambda_ : ℂ) * st.r i + ((st.s.getD idx 0 : ℝ) : ℂ) *
        (starRingEnd ℂ) ((_update_a false (_increment_time_vars
          (_penalty_parameter_update (idx + 1) st))).a i) = 0
    rw [hr i, getD_zeros st.s hs idx, mul_zero, Complex.ofReal_zero, zero_mul, add_zero]
  have hw4 : ∀ i, st4.w_hat i = 0 := fun i => hw i
  have hw5 : ∀ j, st5.w_hat j = 0 := by
    intro j
    rw [hst5]
    exact gd_w_hat_zero st4 hr4 hw4 j
  have hfas := fas_zero st5 hw5 hth
  have hw6 : ∀ i, st6.w_hat i = 0 := fun i => hfas.1 i
  have hact6 : st6.act = [] := hfas.2
  have hrls6 : ∀ i, st6.rls i = 0 := fun i => hrls i
  have hr6 : ∀ i, st6.r i = 0 := fun i => hr4 i
  have hwh6 : ∀ i j, st6.w_hat_hist i j = 0 := fun i j => hwh i j
  have hrh6 : ∀ i j, st6.rls_hist i j = 0 := fun i j => hrh i j
  have hopt : ∃ st7, (if 50 < idx then _rls_update st6 else some st6) = some st7 ∧
      st7.s = st.s ∧ st7.norm_thresh = st.norm_thresh ∧ (∀ i, st7.w_hat i = 0) ∧
      (∀ i, st7.rls i = 0) ∧ (∀ i, st7.r i = 0) ∧
      (∀ i j, st7.w_hat_hist i j = 0) ∧ (∀ i j, st7.rls_hist i j = 0) ∧
      st7.act = [] := by
    have hs6 : st6.s = st.s := rfl
    have hth6 : st6.norm_thresh = st.norm_thresh := rfl
    by_cases h50 : 50 < idx
    · rw [if_pos h50]
      obtain ⟨st7, hsome, hz7⟩ := rls_update_empty_some st6 hact6 hrls6
      obtain ⟨hfs, hfth, _, _, hfr, hfw, hfact, hfwh, hfrh, _⟩ :=
        rls_update_some_fields st6 st7 hsome
      refine ⟨st7, hsome, hfs.trans hs6, hfth.trans hth6, ?_, hz7, ?_, ?_, ?_, ?_⟩
      · intro i; rw [congrFun hfw i]; exact hw6 i
      · intro i; rw [congrFun hfr i]; exact hr6 i
      · intro i j; rw [congrFun (congrFun hfwh i) j]; exact hwh6 i j
      · intro i j; rw [congrFun (congrFun hfrh i) j]; exact hrh6 i j
      · rw [hfact]; exact hact6
    · rw [if_neg h50]
      exact ⟨st6, rfl, hs6, hth6, hw6, hrls6, hr6, hwh6, hrh6, hact6⟩
  obtain ⟨st7, hst7, hs7, hth7, hw7, hrls7, hr7, hwh7, hrh7, hact7⟩ := hopt
  have hstep : step idx st =
      (if 50 < idx then _rls_update st6 else some st6).map
        (fun st8 => _save_history idx
          (if idx % 100 = 0 then dictionary_update st8 else st8)) := by
    rw [hst6, hst5, hst4]
    rfl
  refine ⟨_save_history idx st7, ?_, hs7, ?_, hw7, hrls7, hr7, ?_, ?_, hact7⟩
  · rw [hstep, hst7]
    simp only [Option.map_some', dictionary_update_eq, ite_self]
  · rw [show (_save_history idx st7).norm_thresh = st7.norm_thresh from rfl, hth7, hth]
  · intro i j
    rw [show (_save_history idx st7).w_hat_hist i j =
        if j = idx then st7.w_hat i else st7.w_hat_hist i j from rfl]
    split
    · exact hw7 i
    · exact hwh7 i j
  · intro i j
    rw [show (_save_history idx st7).rls_hist i j =
        if j = idx then st7.rls i else st7.rls_hist i j from rfl]
    split
    · exact hrls7 i
    · exact hrh7 i j

/-- Claim C7 (confirmed): for every configuration, if the input signal is
identically zero then every loop iteration succeeds and the recorded sparse
weight history and RLS history are exactly zero at every sample index (the
live `w_hat` and `rls` vectors stay at exact zero throughout). -/
theorem C7_zero_signal (cfg : Config) (f_int : ℝ × ℝ) (f_spacing : ℝ)
    (hz : ∀ x ∈ cfg.s, x = 0) (n : ℕ) :
    ∃ st, runUpTo (initialize_variables cfg f_int f_spacing) n = some st ∧
      (∀ i j, st.w_hat_hist i j = 0) ∧ (∀ i j, st.rls_hist i j = 0) ∧
      (∀ i, st.w_hat i = 0) ∧ (∀ i, st.rls i = 0) := by
  suffices h : ∀ m, ∃ st,
      runUpTo (initialize_variables cfg f_int f_spacing) m = some st ∧
      st.s = cfg.s ∧ st.norm_thresh = 1 / 100 ∧
      (∀ i, st.w_hat i = 0) ∧ (∀ i, st.rls i = 0) ∧ (∀ i, st.r i = 0) ∧
      (∀ i j, st.w_hat_hist i j = 0) ∧ (∀ i j, st.rls_hist i j = 0) by
    obtain ⟨st, hrun, _, _, hw, hrls, _, hwh, hrh⟩ := h n
    exact ⟨st, hrun, hwh, hrh, hw, hrls⟩
  intro m
  induction m with
  | zero =>
    refine ⟨initialize_variables cfg f_int f_spacing, rfl, rfl, rfl, fun i => rfl,
      fun i => rfl, ?_, fun i j => rfl, fun i j => rfl⟩
    intro i
    rw [show (initialize_variables cfg f_int f_spacing).r i =
        ((cfg.s.getD 0 0 : ℝ) : ℂ) *
          (starRingEnd ℂ) ((initialize_variables cfg f_int f_spacing).a i) from rfl]
    rw [getD_zeros cfg.s hz 0, Complex.ofReal_zero, zero_mul]
  | succ k ih =>
    obtain ⟨st, hrun, hsig, hth, hw, hrls, hr, hwh, hrh⟩ := ih
    have hsz : ∀ x ∈ st.s, x = 0 := by rw [hsig]; exact hz
    obtain ⟨st2, hstep, hs2, hth2, hw2, hrls2, hr2, hwh2, hrh2, _⟩ :=
      step_zero k st hsz hth hw hrls hr hwh hrh
    refine ⟨st2, ?_, hs2.trans hsig, hth2, hw2, hrls2, hr2, hwh2, hrh2⟩
    rw [show runUpTo (initialize_variables cfg f_int f_spacing) (k + 1) =
        (runUpTo (initialize_variables cfg f_int f_spacing) k).bind (step k) from rfl,
      hrun, Option.some_bind, hstep]

/-- Witness for C7_zero_signal: three zero samples through `cfg0`. -/
theorem C7_zero_signal_witness :
    (runUpTo init0 3).map (fun st => (st.w_hat_hist 0 0, st.rls_hist 0 0)) =
      some (0, 0) := by
  obtain ⟨st, hrun, hwh, hrh, _, _⟩ :=
    C7_zero_signal cfg0 (0, 0) 0 (by intro x hx; simp [cfg0] at hx; exact hx) 3
  rw [show runUpTo init0 3 =
      runUpTo (initialize_variables cfg0 (0, 0) 0) 3 from rfl, hrun]
  rw [Option.map_some']
  rw [hwh 0 0, hrh 0 0]

set_option maxHeartbeats 1600000 in
/-- A successful loop iteration updates the covariance matrix exactly once,
by the decayed rank-one recursion with the fresh basis vector. -/
theorem step_some_R (idx : ℕ) (st st2 : PState) (h : step idx st = some st2) :
    ∃ av : ℕ → ℂ, ∀ i j,
      st2.R i j = (st.lambda_ : ℂ) * st.R i j + av i * (starRingEnd ℂ) (av j) := by
  set st6 := _find_active_set (_gradient_descent (_update_r (st.s.getD idx 0)
    (_update_a false (_increment_time_vars (_penalty_parameter_update (idx + 1) st)))))
    with hst6
  have hstep : step idx st =
      (if 50 < idx then _rls_update st6 else some st6).map
        (fun st8 => _save_history idx
          (if idx % 100 = 0 then dictionary_update st8 else st8)) := by
    rw [hst6]
    rfl
  rw [hstep] at h
  rcases hopt : (if 50 < idx then _rls_update st6 else some st6) with _ | st7
  · rw [hopt] at h
    cases h
  · rw [hopt] at h
    rw [Option.map_some'] at h
    have h2 := (Option.some.inj h).symm
    have hR2 : st2.R = st7.R := by
      rw [h2]
      simp only [dictionary_update_eq, ite_self]
      rfl
    have hR7 : st7.R = st6.R := by
      by_cases h50 : 50 < idx
      · rw [if_pos h50] at hopt
        exact (rls_update_some_fields st6 st7 hopt).2.2.2.1
      · rw [if_neg h50] at hopt
        rw [(Option.some.inj hopt)]
    have hR6 : st6.R = fun i j => (st.lambda_ : ℂ) * st.R i j +
        (_update_a false (_increment_time_vars (_penalty_parameter_update (idx + 1) st))).a i *
          (starRingEnd ℂ)
            ((_update_a false (_increment_time_vars
              (_penalty_parameter_update (idx + 1) st))).a j) := by
      rw [hst6]
      rfl
    refine ⟨(_update_a false (_increment_time_vars
      (_penalty_parameter_update (idx + 1) st))).a, fun i j => ?_⟩
    rw [hR2, hR7, hR6]

/-- Claim C9 (confirmed): the covariance matrix `R` is exactly Hermitian at
initialization and stays exactly Hermitian after every covariance update, for
every input signal and configuration and at every reached loop state. -/
theorem C9_R_hermitian (cfg : Config) (f_int : ℝ × ℝ) (f_spacing : ℝ) (n : ℕ)
    (st : PState)
    (h : runUpTo (initialize_variables cfg f_int f_spacing) n = some st) :
    ∀ i j, (starRingEnd ℂ) (st.R j i) = st.R i j := by
  induction n generalizing st with
  | zero =>
    have hst := (Option.some.inj h).symm
    subst hst
    intro i j
    have hR : ∀ i2 j2, (initialize_variables cfg f_int f_spacing).R i2 j2 =
        (initialize_variables cfg f_int f_spacing).a i2 *
          (starRingEnd ℂ) ((initialize_variables cfg f_int f_spacing).a j2) :=
      fun _ _ => rfl
    rw [hR, hR, map_mul, Complex.conj_conj]
    ring
  | succ k ih =>
    rw [show runUpTo (initialize_variables cfg f_int f_spacing) (k + 1) =
        (runUpTo (initialize_variables cfg f_int f_spacing) k).bind (step k) from rfl] at h
    rcases hm : runUpTo (initialize_variables cfg f_int f_spacing) k with _ | stm
    · rw [hm] at h
      cases h
    · rw [hm, Option.some_bind] at h
      have ihm := ih stm hm
      obtain ⟨av, hav⟩ := step_some_R k stm st h
      intro i j
      rw [hav, hav, map_add, map_mul, map_mul, Complex.conj_ofReal, Complex.conj_conj,
        ihm i j]
      ring

/-- Witness for C9_R_hermitian at the initial state of `cfg0`. -/
theorem C9_R_hermitian_witness :
    (starRingEnd ℂ) (init0.R 1 0) = init0.R 0 1 :=
  C9_R_hermitian cfg0 (0, 0) 0 0 init0 rfl 0 1

set_option maxHeartbeats 1600000 in
/-- A successful loop iteration leaves the frequency matrix unchanged and
appends its first column to the frequency history at the sample index. -/
theorem step_some_freq (idx : ℕ) (st st2 : PState) (h : step idx st = some st2) :
    st2.f_mat = st.f_mat ∧
      (∀ p j, st2.freq_hist p j =
        if j = idx then st.f_mat p 0 else st.freq_hist p j) := by
  set st6 := _find_active_set (_gradient_descent (_update_r (st.s.getD idx 0)
    (_update_a false (_increment_time_vars (_penalty_parameter_update (idx + 1) st)))))
    with hst6
  have hstep : step idx st =
      (if 50 < idx then _rls_update st6 else some st6).map
        (fun st8 => _save_history idx
          (if idx % 100 = 0 then dictionary_update st8 else st8)) := by
    rw [hst6]
    rfl
  rw [hstep] at h
  have hf6 : st6.f_mat = st.f_mat := by rw [hst6]; rfl
  have hfh6 : st6.freq_hist = st.freq_hist := by rw [hst6]; rfl
  rcases hopt : (if 50 < idx then _rls_update st6 else some st6) with _ | st7
  · rw [hopt] at h
    cases h
  · rw [hopt] at h
    rw [Option.map_some'] at h
    have h2 := (Option.some.inj h).symm
    have hf7 : st7.f_mat = st.f_mat ∧ st7.freq_hist = st.freq_hist := by
      by_cases h50 : 50 < idx
      · rw [if_pos h50] at hopt
        obtain ⟨_, _, hfm, _, _, _, _, _, _, hfr⟩ := rls_update_some_fields st6 st7 hopt
        exact ⟨hfm.trans hf6, hfr.trans hfh6⟩
      · rw [if_neg h50] at hopt
        rw [← (Option.some.inj hopt)]
        exact ⟨hf6, hfh6⟩
    constructor
    · rw [h2]
      simp only [dictionary_update_eq, ite_self]
      rw [show (_save_history idx st7).f_mat = st7.f_mat from rfl]
      exact hf7.1
    · intro p j
      rw [h2]
      simp only [dictionary_update_eq, ite_self]
      rw [show (_save_history idx st7).freq_hist p j =
          if j = idx then st7.f_mat p 0 else st7.freq_hist p j from rfl]
      rw [congrFun (congrFun hf7.1 p) 0, congrFun (congrFun hf7.2 p) j]

/-- Claim C10 (confirmed): the frequency matrix is never mutated after
initialization, and every recorded column of the frequency history equals
the initial (hardcoded) pitch grid. -/
theorem C10_f_mat_constant (cfg : Config) (f_int : ℝ × ℝ) (f_spacing : ℝ) (n : ℕ)
    (st : PState)
    (h : runUpTo (initialize_variables cfg f_int f_spacing) n = some st) :
    (∀ p h2, st.f_mat p h2 = (initialize_variables cfg f_int f_spacing).f_mat p h2) ∧
      (∀ p, p < 5 → ∀ idx, idx < n → st.freq_hist p idx = hardcodedGrid.getD p 0) := by
  induction n generalizing st with
  | zero =>
    have hst := (Option.some.inj h).symm
    subst hst
    exact ⟨fun p h2 => rfl, fun p _ idx hidx => absurd hidx (by omega)⟩
  | succ k ih =>
    rw [show runUpTo (initialize_variables cfg f_int f_spacing) (k + 1) =
        (runUpTo (initialize_variables cfg f_int f_spacing) k).bind (step k) from rfl] at h
    rcases hm : runUpTo (initialize_variables cfg f_int f_spacing) k with _ | stm
    · rw [hm] at h
      cases h
    · rw [hm, Option.some_bind] at h
      have ihm := ih stm hm
      obtain ⟨hfm, hfh⟩ := step_some_freq k stm st h
      constructor
      · intro p h2
        rw [congrFun (congrFun hfm p) h2]
        exact ihm.1 p h2
      · intro p hp idx hidx
        rw [hfh p idx]
        by_cases hji : idx = k
        · rw [if_pos hji, ihm.1 p 0]
          rw [show (initialize_variables cfg f_int f_spacing).f_mat p 0 =
              ((0 + 1 : ℕ) : ℝ) * hardcodedGrid.getD p 0 from rfl]
          norm_num
        · rw [if_neg hji]
          exact ihm.2 p hp idx (by omega)

/-- Witness for C10_f_mat_constant after one loop iteration on `cfg0`. -/
theorem C10_f_mat_constant_witness :
    stepResult0.freq_hist 0 0 = hardcodedGrid.getD 0 0 := by
  have h : runUpTo (initialize_variables cfg0 (0, 0) 0) 1 = some stepResult0 := rfl
  exact (C10_f_mat_constant cfg0 (0, 0) 0 1 stepResult0 h).2 0 (by norm_num) 0
    (by norm_num)

end
